import Mathlib

/-!
Shallow embedding of `watermeter.go` (package `watermeter`).

Modelling choices, traceable to the source:
* Go `uint64` values are `ℕ` kept below `U64 = 2 ^ 64`; every operation the
  source performs on `uint64` is embedded with an explicit reduction
  modulo `U64`, so wrap-around behaves exactly as in Go.
* `time.Time` instants and `time.Duration` values (int64 nanoseconds) are
  both `ℤ` nanoseconds.  The injected time source `w.now()` becomes an
  explicit `now : ℤ` argument of each operation.
* Go `float64` results are computed over `ℚ`; the only place where this
  differs from IEEE arithmetic is division by zero, which is flagged where
  it matters.
* The `container/list` history is a `List Entry`, newest sample first,
  matching the PushFront / Front / Next / Back / Remove usage of the source.
* The prune loop of `Update` dereferences `w.events.Back().Value` without a
  nil check; the embedding returns `Option`, with `none` marking that
  would-be nil dereference, so totality of `Update` is a theorem, not an
  assumption.
* The `Change` hook fires unconditionally and carries no data, so it is not
  modelled; the `Usage` hook invocation is returned by `update` as an
  `Option (ℕ × ℚ)` holding `(gallons, flow)`.  Whether `Usage` is non-nil
  is the `hasUsage` flag.
-/

/-- `2 ^ 64`, the modulus of Go `uint64` arithmetic (written as a numeral
so that `omega` and `decide` can work with it directly). -/
def U64 : ℕ := 18446744073709551616

/-- One history sample: struct `entry` of watermeter.go lines 11-14, a
`time.Time` and a `uint64` running total. -/
structure Entry where
  time : ℤ
  total : ℕ
deriving DecidableEq

/-- The `Watermeter` struct, watermeter.go lines 18-28.  The mutex, the
stored `now` function and the two hook function pointers are not data;
`hasUsage` records whether the `Usage` hook is non-nil. -/
structure Watermeter where
  timeout : ℤ
  hasUsage : Bool
  lastGallon : Entry
  total : ℕ
  events : List Entry
deriving DecidableEq

/-- Go `uint64` subtraction `a - b` (wrapping), for `a b < U64`. -/
def usub64 (a b : ℕ) : ℕ := (a + (U64 - b % U64)) % U64

/-- `time.Duration.Minutes()` over `ℚ`: nanoseconds divided by the
nanoseconds of one minute. -/
def minutes (d : ℤ) : ℚ := (d : ℚ) / 60000000000

/-- `Watermeter.Init`, lines 51-68: store the initial running total, reset
the history to the single sample `{now, total}` and record that sample as
`lastGallon`. -/
def init (initial : ℕ) (now : ℤ) (timeout : ℤ) (hasUsage : Bool) : Watermeter :=
  { timeout := timeout
    hasUsage := hasUsage
    lastGallon := ⟨now, initial % U64⟩
    total := initial % U64
    events := [⟨now, initial % U64⟩] }

/-- `Watermeter.GetGallons`, lines 98-101: `w.total / 1000`. -/
def getGallons (w : Watermeter) : ℕ := w.total / 1000

/-- The scan loop of `GetFlow`, lines 80-91: walk the history from newest
to oldest, moving `start` to each sample whose timestamp is at or after
`thenT`, and stop at the first sample that is older. -/
def findStart (thenT : ℤ) : Entry → List Entry → Entry
  | start, [] => start
  | start, e :: rest => if thenT ≤ e.time then findStart thenT e rest else start

/-- `Watermeter.GetFlow`, lines 71-96.  `then = now - duration`; both the
`end` point and the `start` seed carry the current `w.total`; the volume
delta on line 94 is `uint64` subtraction, and line 95 divides by 1000 and
by the duration in minutes. -/
def getFlow (w : Watermeter) (now dur : ℤ) : ℚ :=
  ((usub64 w.total (findStart (now - dur) ⟨now, w.total⟩ w.events).total : ℕ) : ℚ)
    / 1000 / minutes dur

/-- The prune loop of `Update`, lines 119-131, with explicit fuel for
termination (each iteration removes one element, so `l.length` fuel is
enough; the fuel case is never reached from a nonempty list, as proved
below).  `none` models the nil dereference of `Back()` on an empty
history.  The loop removes the oldest sample when it is strictly older
than `prune`, then stops as soon as the remaining length is below 3; when
the oldest sample is not older than `prune` it stops immediately. -/
def pruneGo (prune : ℤ) : ℕ → List Entry → Option (List Entry)
  | 0, _ => none
  | _ + 1, [] => none
  | fuel + 1, x :: xs =>
    let e := (x :: xs).getLast (List.cons_ne_nil x xs)
    if e.time < prune then
      let l' := (x :: xs).dropLast
      if l'.length < 3 then some l' else pruneGo prune fuel l'
    else some (x :: xs)

/-- The prune loop entered with fuel equal to the history length. -/
def pruneLoop (prune : ℤ) (l : List Entry) : Option (List Entry) :=
  pruneGo prune l.length l

/-- `Watermeter.Update`, lines 105-147, one call at time `now` with `d`
thousandths of a gallon.  Returns the new state together with the `Usage`
hook invocation, if any; `none` is the empty-history nil dereference in
the prune loop.  `uint64(mGallons)` is `d % U64`; the running-total
addition, the whole-gallon test `(after - before) > 0` and the flow
numerator on line 141 are `uint64` operations. -/
def update (w : Watermeter) (now : ℤ) (d : ℕ) : Option (Watermeter × Option (ℕ × ℚ)) :=
  let before := w.total / 1000
  let total' := (w.total + d % U64) % U64
  let after := total' / 1000
  let e : Entry := ⟨now, total'⟩
  match pruneLoop (now - w.timeout) (e :: w.events) with
  | none => none
  | some events' =>
    if 0 < usub64 after before then
      some ({ w with total := total', events := events', lastGallon := e },
        if w.hasUsage then
          some (after,
            ((usub64 total' w.lastGallon.total : ℕ) : ℚ) / 1000
              / minutes (now - w.lastGallon.time))
        else none)
    else
      some ({ w with total := total', events := events' }, none)

/-- A sequence of `update` calls; each step is `(now, delta)`. -/
def runUpdates (w : Watermeter) : List (ℤ × ℕ) → Option Watermeter
  | [] => some w
  | s :: rest =>
    match update w s.1 s.2 with
    | none => none
    | some p => runUpdates p.1 rest

/-- `GetFlow` as a state transformer: the method body (lines 71-96) reads
fields of the receiver but assigns none of them. -/
def getFlowS (w : Watermeter) (now dur : ℤ) : ℚ × Watermeter :=
  (getFlow w now dur, w)

/-- `GetGallons` as a state transformer: the method body (lines 98-101)
only reads `w.total`. -/
def getGallonsS (w : Watermeter) : ℕ × Watermeter :=
  (getGallons w, w)

/-- Spec wording for the `GetFlow` start point (claim C2): the oldest
history sample whose timestamp is at or after `thenT`, or the fallback
point when no sample qualifies.  The history is newest first, so the
oldest qualifying sample is the last element of the filtered list. -/
def specStart (thenT : ℤ) (dflt : Entry) (l : List Entry) : Entry :=
  (l.filter fun e => decide (thenT ≤ e.time)).getLastD dflt

/-- Timestamps non-decreasing oldest to newest; the history is stored
newest first, so adjacent pairs decrease front to back. -/
def timesMonotone (l : List Entry) : Prop :=
  List.Chain' (fun a b => b.time ≤ a.time) l

/-- Totals non-decreasing oldest to newest. -/
def totalsMonotone (l : List Entry) : Prop :=
  List.Chain' (fun a b => b.total ≤ a.total) l

/-- Spec wording for claim C5: timestamps and totals both non-decreasing
oldest to newest. -/
def historyMonotone (l : List Entry) : Prop :=
  timesMonotone l ∧ totalsMonotone l

/-- Kernel-reducible decision procedure for `timesMonotone`. -/
def timesMonotoneDec : (l : List Entry) → Decidable (timesMonotone l)
  | [] => isTrue List.chain'_nil
  | [_] => isTrue (List.chain'_singleton _)
  | a :: b :: l =>
    haveI : Decidable (timesMonotone (b :: l)) := timesMonotoneDec (b :: l)
    decidable_of_iff (b.time ≤ a.time ∧ timesMonotone (b :: l))
      (@List.chain'_cons Entry (fun a b => b.time ≤ a.time) a b l).symm

instance (l : List Entry) : Decidable (timesMonotone l) := timesMonotoneDec l

/-- Kernel-reducible decision procedure for `totalsMonotone`. -/
def totalsMonotoneDec : (l : List Entry) → Decidable (totalsMonotone l)
  | [] => isTrue List.chain'_nil
  | [_] => isTrue (List.chain'_singleton _)
  | a :: b :: l =>
    haveI : Decidable (totalsMonotone (b :: l)) := totalsMonotoneDec (b :: l)
    decidable_of_iff (b.total ≤ a.total ∧ totalsMonotone (b :: l))
      (@List.chain'_cons Entry (fun a b => b.total ≤ a.total) a b l).symm

instance (l : List Entry) : Decidable (totalsMonotone l) := totalsMonotoneDec l

instance (l : List Entry) : Decidable (historyMonotone l) :=
  instDecidableAnd

instance : IsTrans Entry (fun a b => b.time ≤ a.time) :=
  ⟨fun _ _ _ hab hbc => le_trans hbc hab⟩

instance : IsTrans Entry (fun a b => b.total ≤ a.total) :=
  ⟨fun _ _ _ hab hbc => le_trans hbc hab⟩

/-! ## Helper lemmas -/

lemma U64_pos : 0 < U64 := by norm_num [U64]

lemma usub64_eq_sub {a b : ℕ} (hba : b ≤ a) (ha : a < U64) : usub64 a b = a - b := by
  simp only [usub64, U64] at *
  omega

lemma usub64_pos_iff {a b : ℕ} (ha : a < U64) (hb : b < U64) :
    (0 < usub64 a b) ↔ a ≠ b := by
  simp only [usub64, U64] at *
  omega

lemma times_le_head (e : Entry) (rest : List Entry) (h : timesMonotone (e :: rest)) :
    ∀ x ∈ rest, x.time ≤ e.time := by
  induction rest generalizing e with
  | nil => intro x hx; cases hx
  | cons y ys ih =>
    rw [timesMonotone, List.chain'_cons] at h
    intro x hx
    rcases List.mem_cons.mp hx with rfl | hx'
    · exact h.1
    · exact le_trans (ih y h.2 x hx') h.1

lemma findStart_eq_specStart (thenT : ℤ) :
    ∀ (l : List Entry) (dflt : Entry), timesMonotone l →
      findStart thenT dflt l = specStart thenT dflt l := by
  intro l
  induction l with
  | nil => intro dflt _; rfl
  | cons e rest ih =>
    intro dflt h
    by_cases hc : thenT ≤ e.time
    · have hrest : timesMonotone rest := List.Chain'.tail h
      simp only [findStart, if_pos hc, specStart, List.filter_cons,
        decide_eq_true hc, if_true, List.getLastD_cons]
      exact ih e hrest
    · have hall : (e :: rest).filter (fun e => decide (thenT ≤ e.time)) = [] := by
        rw [List.filter_eq_nil_iff]
        intro a ha
        rcases List.mem_cons.mp ha with rfl | ha'
        · simpa using hc
        · have := times_le_head e rest h a ha'
          simp only [decide_eq_true_eq]
          omega
      simp only [findStart, if_neg hc, specStart, hall, List.getLastD]

lemma specStart_total_le {B : ℕ} (thenT : ℤ) (dflt : Entry) (l : List Entry)
    (hb : ∀ e ∈ l, e.total ≤ B) (hd : dflt.total ≤ B) :
    (specStart thenT dflt l).total ≤ B := by
  rw [specStart, List.getLastD_eq_getLast?]
  cases hlast : (l.filter fun e => decide (thenT ≤ e.time)).getLast? with
  | none => simpa using hd
  | some x =>
    have hmem : x ∈ (l.filter fun e => decide (thenT ≤ e.time)).getLast? := by
      rw [hlast]; rfl
    obtain ⟨hne, hx⟩ := List.mem_getLast?_eq_getLast hmem
    have : x ∈ l := List.mem_of_mem_filter (hx ▸ List.getLast_mem hne)
    simpa using hb x this

lemma pruneGo_spec (prune : ℤ) :
    ∀ (fuel : ℕ) (l : List Entry), l ≠ [] → l.length ≤ fuel →
      ∃ r, pruneGo prune fuel l = some r ∧ r.Sublist l ∧
        (2 ≤ l.length → l.head? = r.head? ∧ r ≠ []) := by
  intro fuel
  induction fuel with
  | zero =>
    intro l hne hlen
    cases l with
    | nil => exact absurd rfl hne
    | cons x xs => simp at hlen
  | succ n ih =>
    intro l hne hlen
    cases l with
    | nil => exact absurd rfl hne
    | cons x xs =>
      simp only [pruneGo]
      by_cases hold : ((x :: xs).getLast (List.cons_ne_nil x xs)).time < prune
      · rw [if_pos hold]
        by_cases hlen3 : ((x :: xs).dropLast).length < 3
        · rw [if_pos hlen3]
          refine ⟨(x :: xs).dropLast, rfl, List.dropLast_sublist _, ?_⟩
          intro h2
          cases xs with
          | nil => simp at h2
          | cons y ys =>
            rw [List.dropLast_cons₂]
            exact ⟨rfl, by simp⟩
        · rw [if_neg hlen3]
          have h3 : 3 ≤ ((x :: xs).dropLast).length := by omega
          have hne' : (x :: xs).dropLast ≠ [] := by
            intro hnil; rw [hnil] at h3; simp at h3
          have hlen' : ((x :: xs).dropLast).length ≤ n := by
            rw [List.length_dropLast]
            simp only [List.length_cons] at hlen ⊢
            omega
          obtain ⟨r, hr, hsub, hhead⟩ := ih _ hne' hlen'
          obtain ⟨hh, hrne⟩ := hhead (by omega)
          refine ⟨r, hr, hsub.trans (List.dropLast_sublist _), fun _ => ⟨?_, hrne⟩⟩
          cases xs with
          | nil => simp at h3
          | cons y ys => rw [← hh, List.dropLast_cons₂]; rfl
      · rw [if_neg hold]
        exact ⟨x :: xs, rfl, List.Sublist.refl _, fun _ => ⟨rfl, by simp⟩⟩

lemma pruneLoop_spec (prune : ℤ) (l : List Entry) (hne : l ≠ []) :
    ∃ r, pruneLoop prune l = some r ∧ r.Sublist l ∧
      (2 ≤ l.length → l.head? = r.head? ∧ r ≠ []) :=
  pruneGo_spec prune l.length l hne le_rfl

lemma update_spec (w : Watermeter) (now : ℤ) (d : ℕ) (hne : w.events ≠ []) :
    ∃ w' ev, update w now d = some (w', ev) ∧
      w'.total = (w.total + d) % U64 ∧
      w'.events.head? = some ⟨now, (w.total + d) % U64⟩ ∧
      w'.events ≠ [] ∧
      w'.events.Sublist (⟨now, (w.total + d) % U64⟩ :: w.events) ∧
      w'.timeout = w.timeout ∧ w'.hasUsage = w.hasUsage := by
  have htot : (w.total + d % U64) % U64 = (w.total + d) % U64 := by
    simp only [U64]
    omega
  obtain ⟨r, hr, hsub, hhead⟩ :=
    pruneLoop_spec (now - w.timeout) (⟨now, (w.total + d % U64) % U64⟩ :: w.events) (by simp)
  have h2 : 2 ≤ (Entry.mk now ((w.total + d % U64) % U64) :: w.events).length := by
    cases hev : w.events with
    | nil => exact absurd hev hne
    | cons a l =>
      simp only [List.length_cons]
      omega
  obtain ⟨hh, hrne⟩ := hhead h2
  have hrhead : r.head? = some ⟨now, (w.total + d) % U64⟩ := by
    rw [← hh, List.head?_cons, htot]
  have hrsub : r.Sublist (⟨now, (w.total + d) % U64⟩ :: w.events) := by
    rw [← htot]
    exact hsub
  by_cases hfire :
      0 < usub64 ((w.total + d % U64) % U64 / 1000) (w.total / 1000)
  · exact ⟨Watermeter.mk w.timeout w.hasUsage ⟨now, (w.total + d % U64) % U64⟩
             ((w.total + d % U64) % U64) r,
           (if w.hasUsage then
             some ((w.total + d % U64) % U64 / 1000,
               ((usub64 ((w.total + d % U64) % U64) w.lastGallon.total : ℕ) : ℚ) / 1000
                 / minutes (now - w.lastGallon.time))
            else none),
           by simp only [update]; rw [hr]; simp only [hfire, if_true],
           htot, hrhead, hrne, hrsub, rfl, rfl⟩
  · exact ⟨Watermeter.mk w.timeout w.hasUsage w.lastGallon
             ((w.total + d % U64) % U64) r, none,
           by simp only [update]; rw [hr]; simp only [hfire, if_false],
           htot, hrhead, hrne, hrsub, rfl, rfl⟩

lemma run_basic : ∀ (steps : List (ℤ × ℕ)) (w : Watermeter),
    w.events ≠ [] → w.events.head?.map Entry.total = some w.total → w.total < U64 →
    ∃ w', runUpdates w steps = some w' ∧ w'.events ≠ [] ∧
      w'.events.head?.map Entry.total = some w'.total ∧
      w'.total = (w.total + (steps.map Prod.snd).sum) % U64 := by
  intro steps
  induction steps with
  | nil =>
    intro w h1 h2 h3
    exact ⟨w, rfl, h1, h2, by simp [Nat.mod_eq_of_lt h3]⟩
  | cons s rest ih =>
    intro w h1 h2 h3
    obtain ⟨w1, ev, hup, htot, hhead, hne1, _, _, _⟩ := update_spec w s.1 s.2 h1
    have h2' : w1.events.head?.map Entry.total = some w1.total := by
      rw [hhead, htot]
      rfl
    have h3' : w1.total < U64 := by
      rw [htot]
      exact Nat.mod_lt _ U64_pos
    obtain ⟨w', hrun, a1, a2, a3⟩ := ih w1 hne1 h2' h3'
    refine ⟨w', ?_, a1, a2, ?_⟩
    · simp only [runUpdates]
      rw [hup]
      exact hrun
    · rw [a3, htot]
      simp only [List.map_cons, List.sum_cons, U64]
      omega

lemma run_monotone : ∀ (steps : List (ℤ × ℕ)) (w : Watermeter) (t : ℤ),
    w.events ≠ [] →
    w.events.head?.map Entry.total = some w.total →
    (∀ e ∈ w.events, e.time ≤ t) →
    (∀ e ∈ w.events, e.total ≤ w.total) →
    historyMonotone w.events →
    List.Chain (fun a b : ℤ => a ≤ b) t (steps.map Prod.fst) →
    w.total + (steps.map Prod.snd).sum < U64 →
    ∃ w', runUpdates w steps = some w' ∧ historyMonotone w'.events := by
  intro steps
  induction steps with
  | nil =>
    intro w t _ _ _ _ h5 _ _
    exact ⟨w, rfl, h5⟩
  | cons s rest ih =>
    intro w t h1 h2 h3 h4 h5 hchain hsum
    rw [List.map_cons, List.chain_cons] at hchain
    rw [List.map_cons, List.sum_cons] at hsum
    have hT : (w.total + s.2) % U64 = w.total + s.2 := Nat.mod_eq_of_lt (by omega)
    obtain ⟨w1, ev, hup, htot, hhead, hne1, hsub1, _, _⟩ := update_spec w s.1 s.2 h1
    rw [hT] at htot hhead hsub1
    have hmem : ∀ x ∈ w1.events, x = (⟨s.1, w.total + s.2⟩ : Entry) ∨ x ∈ w.events := by
      intro x hx
      exact List.mem_cons.mp (hsub1.subset hx)
    have h3' : ∀ x ∈ w1.events, x.time ≤ s.1 := by
      intro x hx
      rcases hmem x hx with rfl | hx'
      · exact le_refl _
      · exact le_trans (h3 x hx') hchain.1
    have h4' : ∀ x ∈ w1.events, x.total ≤ w1.total := by
      rw [htot]
      intro x hx
      rcases hmem x hx with rfl | hx'
      · exact le_refl _
      · exact le_trans (h4 x hx') (Nat.le_add_right _ _)
    have hconsT : timesMonotone ((⟨s.1, w.total + s.2⟩ : Entry) :: w.events) := by
      rw [timesMonotone, List.chain'_cons']
      refine ⟨?_, h5.1⟩
      intro y hy
      exact le_trans (h3 y (List.mem_of_mem_head? hy)) hchain.1
    have hconsV : totalsMonotone ((⟨s.1, w.total + s.2⟩ : Entry) :: w.events) := by
      rw [totalsMonotone, List.chain'_cons']
      refine ⟨?_, h5.2⟩
      intro y hy
      exact le_trans (h4 y (List.mem_of_mem_head? hy)) (Nat.le_add_right _ _)
    have h5' : historyMonotone w1.events :=
      ⟨List.Chain'.sublist hconsT hsub1, List.Chain'.sublist hconsV hsub1⟩
    have h2' : w1.events.head?.map Entry.total = some w1.total := by
      rw [hhead, htot]
      rfl
    obtain ⟨w', hrun, hmono⟩ :=
      ih w1 s.1 hne1 h2' h3' h4' h5' hchain.2 (by rw [htot]; omega)
    refine ⟨w', ?_, hmono⟩
    simp only [runUpdates]
    rw [hup]
    exact hrun

/-! ## Claim theorems -/

/-- Claim C10: after `Init` and after every sequence of `Update` calls the
run succeeds (the prune loop never dereferences `Back()` of an empty
history, i.e. `runUpdates` never returns `none`), the history is
non-empty, and the newest (front) sample carries exactly the current
running total — in particular the prune loop never removed the sample
appended by the same call. -/
theorem C10_history_head (i : ℕ) (t0 tm : ℤ) (hu : Bool) (steps : List (ℤ × ℕ)) :
    ∃ w', runUpdates (init i t0 tm hu) steps = some w' ∧ w'.events ≠ [] ∧
      w'.events.head?.map Entry.total = some w'.total := by
  obtain ⟨w', h1, h2, h3, _⟩ :=
    run_basic steps (init i t0 tm hu) (by simp [init]) (by simp [init])
      (Nat.mod_lt _ U64_pos)
  exact ⟨w', h1, h2, h3⟩

/-- Claim C1 counterexample: starting from the `uint64` initial total
`2 ^ 64 - 1`, a single `Update(1000)` wraps the running total around to
999, so `GetGallons` returns 0, but the mathematical value
`floor((initial_total + 1000) / 1000)` is not 0.  The claim as stated
(with an unreduced mathematical sum) therefore fails on the code. -/
theorem C1_counterexample :
    (runUpdates (init (U64 - 1) 0 1000000000 false) [(0, 1000)]).map getGallons =
        some 0 ∧
      (U64 - 1 + 1000) / 1000 ≠ 0 := by
  constructor
  · rfl
  · decide

/-- Claim C1, amended for `uint64` wrap-around: after any initial total
and any sequence of `Update` calls, `GetGallons` returns
`floor(((initial_total + sum of deltas) mod 2 ^ 64) / 1000)`; when the
mathematical sum stays below `2 ^ 64` this is the claim as written. -/
theorem C1_amended_gallons (i : ℕ) (t0 tm : ℤ) (hu : Bool) (steps : List (ℤ × ℕ)) :
    ∃ w', runUpdates (init i t0 tm hu) steps = some w' ∧
      getGallons w' = ((i + (steps.map Prod.snd).sum) % U64) / 1000 := by
  obtain ⟨w', h1, _, _, h4⟩ :=
    run_basic steps (init i t0 tm hu) (by simp [init]) (by simp [init])
      (Nat.mod_lt _ U64_pos)
  refine ⟨w', h1, ?_⟩
  simp only [getGallons]
  rw [h4]
  congr 1
  simp only [init, U64]
  omega

/-- Claim C5 counterexample: with the `uint64` initial total `2 ^ 64 - 1`
and one `Update(1000)` one nanosecond later, the running total wraps to
999, so the two retained samples have totals `2 ^ 64 - 1` then 999 —
decreasing oldest to newest, refuting the claimed monotonicity for
arbitrary update sequences. -/
theorem C5_counterexample :
    runUpdates (init (U64 - 1) 0 1000000000 false) [(1, 1000)] =
        some (Watermeter.mk 1000000000 false ⟨1, 999⟩ 999
          [⟨1, 999⟩, ⟨0, U64 - 1⟩]) ∧
      ¬ historyMonotone [⟨1, 999⟩, ⟨0, U64 - 1⟩] := by
  constructor
  · rfl
  · decide

/-- Claim C5, amended for `uint64` wrap-around: when the injected time
source is non-decreasing and the running total never overflows (initial
total plus all deltas below `2 ^ 64`), the history after any sequence of
updates has non-decreasing timestamps and totals oldest to newest. -/
theorem C5_amended_monotone (i : ℕ) (t0 tm : ℤ) (hu : Bool) (steps : List (ℤ × ℕ))
    (hchain : List.Chain (fun a b : ℤ => a ≤ b) t0 (steps.map Prod.fst))
    (hov : i + (steps.map Prod.snd).sum < U64) :
    ∃ w', runUpdates (init i t0 tm hu) steps = some w' ∧
      historyMonotone w'.events := by
  apply run_monotone steps (init i t0 tm hu) t0
  · simp [init]
  · simp [init]
  · intro e he
    simp only [init, List.mem_singleton] at he
    subst he
    exact le_refl _
  · intro e he
    simp only [init, List.mem_singleton] at he
    subst he
    exact le_refl _
  · exact ⟨List.chain'_singleton _, List.chain'_singleton _⟩
  · exact hchain
  · simp only [init, U64] at hov ⊢
    omega

/-- Witness for the amended claim C5 at a concrete run: two updates, one
and two nanoseconds after construction, with deltas 5 and 7. -/
theorem C5_witness :
    (List.Chain (fun a b : ℤ => a ≤ b) 0 (([((1 : ℤ), (5 : ℕ)), (2, 7)]).map Prod.fst) ∧
      0 + (([((1 : ℤ), (5 : ℕ)), (2, 7)]).map Prod.snd).sum < U64) ∧
    (∃ w', runUpdates (init 0 0 10 false) [((1 : ℤ), (5 : ℕ)), (2, 7)] = some w' ∧
      historyMonotone w'.events) :=
  ⟨⟨by norm_num [List.chain_cons], by decide⟩,
   C5_amended_monotone 0 0 10 false [((1 : ℤ), (5 : ℕ)), (2, 7)]
     (by norm_num [List.chain_cons]) (by decide)⟩

/-- Claim C2: for every accumulator state satisfying the documented history
invariants (timestamps sorted, sample totals bounded by the current
`uint64` total) and every positive duration, `GetFlow` returns
`(current_total - start.total) / 1000 / minutes(duration)` where `start`
is the oldest history sample with timestamp at or after `now - duration`;
when no sample qualifies, `start` collapses to the current point and the
result is zero. -/
theorem C2_getFlow_spec (w : Watermeter) (now dur : ℤ)
    (hsort : timesMonotone w.events)
    (hbound : ∀ e ∈ w.events, e.total ≤ w.total)
    (hU : w.total < U64) (hdur : 0 < dur) :
    getFlow w now dur =
      ((w.total : ℚ) - ((specStart (now - dur) ⟨now, w.total⟩ w.events).total : ℚ))
        / 1000 / minutes dur ∧
    ((∀ e ∈ w.events, e.time < now - dur) → getFlow w now dur = 0) := by
  have hfs := findStart_eq_specStart (now - dur) w.events ⟨now, w.total⟩ hsort
  have hle : (specStart (now - dur) ⟨now, w.total⟩ w.events).total ≤ w.total :=
    specStart_total_le _ _ _ hbound le_rfl
  constructor
  · simp only [getFlow, hfs, usub64_eq_sub hle hU, Nat.cast_sub hle]
  · intro hall
    have hnil : w.events.filter (fun e => decide ((now - dur) ≤ e.time)) = [] := by
      rw [List.filter_eq_nil_iff]
      intro a ha
      simpa using not_le.mpr (hall a ha)
    simp only [getFlow, hfs, specStart, hnil, List.getLastD,
      usub64_eq_sub le_rfl hU, Nat.sub_self, Nat.cast_zero, zero_div]

/-- Witness for claim C2 on a concrete sorted two-sample state: the start
point is the oldest retained sample inside the window. -/
theorem C2_witness :
    (timesMonotone [(⟨5, 700⟩ : Entry), ⟨0, 200⟩] ∧
      (∀ e ∈ [(⟨5, 700⟩ : Entry), ⟨0, 200⟩], e.total ≤ 700) ∧
      700 < U64 ∧ (0 : ℤ) < 10) ∧
    (getFlow (Watermeter.mk 0 false ⟨0, 0⟩ 700 [⟨5, 700⟩, ⟨0, 200⟩]) 6 10 =
      ((700 : ℚ) - ((specStart (6 - 10) ⟨6, 700⟩ [⟨5, 700⟩, ⟨0, 200⟩]).total : ℚ))
        / 1000 / minutes 10 ∧
      ((∀ e ∈ [(⟨5, 700⟩ : Entry), ⟨0, 200⟩], e.time < 6 - 10) →
        getFlow (Watermeter.mk 0 false ⟨0, 0⟩ 700 [⟨5, 700⟩, ⟨0, 200⟩]) 6 10 = 0)) :=
  ⟨⟨by decide, by decide, by decide, by decide⟩,
   C2_getFlow_spec (Watermeter.mk 0 false ⟨0, 0⟩ 700 [⟨5, 700⟩, ⟨0, 200⟩]) 6 10
     (by decide) (by decide) (by decide) (by decide)⟩

/-- Claim C3 (code bug): with `Timeout` of 10ns, `Init(0)` at time 0 and a
single `Update(0)` at time 100ns, the prune loop removes the expired
initial sample even though only two samples are held (the length check on
line 128 runs after the removal on line 124), leaving a single-sample
history; the claimed two-sample floor does not hold. -/
theorem C3_failing_run :
    (runUpdates (init 0 0 10 false) [(100, 0)]).map (fun w => w.events.length) =
      some 1 := rfl

/-- Claim C4 (code bug): the minutes divisor used by `GetFlow` (line 95)
and by the usage-rate computation (line 142) is zero for a zero duration
or zero elapsed time, and the code divides by it unconditionally — there
is no guard or documented policy; over Go float64 the division yields NaN
or +Inf. -/
theorem C4_zero_duration_divisor : minutes 0 = 0 := by
  simp [minutes]

/-- Claim C7: for every accumulator state and every strictly positive
duration, `GetFlow` returns a non-negative value (the `uint64` volume
delta is non-negative as a natural number, and the minutes divisor is
positive). -/
theorem C7_flow_nonneg (w : Watermeter) (now dur : ℤ) (hdur : 0 < dur) :
    0 ≤ getFlow w now dur := by
  simp only [getFlow]
  apply div_nonneg
  · apply div_nonneg
    · exact Nat.cast_nonneg _
    · norm_num
  · simp only [minutes]
    apply div_nonneg
    · exact_mod_cast le_of_lt hdur
    · norm_num

/-- Witness for claim C7 at a concrete state and duration. -/
theorem C7_witness : (0 : ℤ) < 1 ∧ 0 ≤ getFlow (init 0 0 0 false) 0 1 :=
  ⟨by decide, C7_flow_nonneg (init 0 0 0 false) 0 1 (by decide)⟩

/-- Claim C8: `GetFlow` and `GetGallons` leave the accumulator state
unchanged — their method bodies assign no field, so their state-passing
embeddings return the receiver untouched; `update` is the only operation
producing a new state. -/
theorem C8_reads_pure (w : Watermeter) (now dur : ℤ) :
    (getFlowS w now dur).2 = w ∧ (getGallonsS w).2 = w :=
  ⟨rfl, rfl⟩

/-- Claim C6 counterexample: starting from the `uint64` initial total
`2 ^ 64 - 1` with a registered Usage hook, `Update(500)` one minute later
wraps the total to 499, so the whole-gallon floor strictly decreases —
yet `(after - before) > 0` holds under `uint64` subtraction, the hook
fires and `lastGallon` is replaced, refuting the claimed "floor does not
increase ⇒ no hook, lastGallon unchanged". -/
theorem C6_counterexample :
    (update (init (U64 - 1) 0 1000000000 true) 60000000000 500).map
        (fun p => (p.2.isSome, p.1.lastGallon)) =
      some (true, ⟨60000000000, 499⟩) ∧
      ((U64 - 1 + 500) % U64) / 1000 ≤ (U64 - 1) / 1000 := by
  constructor
  · rfl
  · decide

/-- Claim C6, amended for `uint64` wrap-around: for an `Update` call on a
state with `lastGallon.total ≤ total` whose addition does not overflow
(`total + d < 2 ^ 64`), if the whole-gallon floor strictly increases the
Usage hook is invoked exactly once with the new gallon count and
`rate = (new_total - lastGallon.total) / 1000 / minutes(now -
lastGallon.time)` and `lastGallon` becomes the newly appended sample,
while if the floor does not increase the hook is not invoked and
`lastGallon` is unchanged. -/
theorem C6_amended_usage (w : Watermeter) (now : ℤ) (d : ℕ) (w' : Watermeter)
    (ev : Option (ℕ × ℚ))
    (hov : w.total + d < U64) (hlg : w.lastGallon.total ≤ w.total)
    (hup : update w now d = some (w', ev)) :
    (w.total / 1000 < (w.total + d) / 1000 →
      (ev = if w.hasUsage then
        some ((w.total + d) / 1000,
          ((w.total + d - w.lastGallon.total : ℕ) : ℚ) / 1000
            / minutes (now - w.lastGallon.time))
       else none) ∧
      w'.lastGallon = ⟨now, w.total + d⟩) ∧
    (¬ w.total / 1000 < (w.total + d) / 1000 →
      ev = none ∧ w'.lastGallon = w.lastGallon) := by
  have hdU : d % U64 = d :=
    Nat.mod_eq_of_lt (lt_of_le_of_lt (Nat.le_add_left d w.total) hov)
  have htU : (w.total + d) % U64 = w.total + d := Nat.mod_eq_of_lt hov
  simp only [update, hdU, htU] at hup
  cases hpl : pruneLoop (now - w.timeout) (⟨now, w.total + d⟩ :: w.events) with
  | none =>
    simp only [hpl] at hup
    exact Option.noConfusion hup
  | some events' =>
    simp only [hpl] at hup
    have hba : w.total / 1000 ≤ (w.total + d) / 1000 :=
      Nat.div_le_div_right (Nat.le_add_right _ _)
    have hbU : w.total / 1000 < U64 :=
      lt_of_le_of_lt (Nat.div_le_self _ _) (lt_of_le_of_lt (Nat.le_add_right _ _) hov)
    have haU : (w.total + d) / 1000 < U64 :=
      lt_of_le_of_lt (Nat.div_le_self _ _) hov
    by_cases hlt : w.total / 1000 < (w.total + d) / 1000
    · have hfire : 0 < usub64 ((w.total + d) / 1000) (w.total / 1000) :=
        (usub64_pos_iff haU hbU).mpr (by omega)
      rw [if_pos hfire] at hup
      simp only [Option.some.injEq, Prod.mk.injEq] at hup
      obtain ⟨hw, hev⟩ := hup
      subst hw
      refine ⟨fun _ => ⟨?_, rfl⟩, fun hcon => absurd hlt hcon⟩
      rw [usub64_eq_sub (le_trans hlg (Nat.le_add_right _ _)) hov] at hev
      exact hev.symm
    · have hfire : ¬ 0 < usub64 ((w.total + d) / 1000) (w.total / 1000) := by
        intro hpos
        exact (usub64_pos_iff haU hbU).mp hpos (by omega)
      rw [if_neg hfire] at hup
      simp only [Option.some.injEq, Prod.mk.injEq] at hup
      obtain ⟨hw, hev⟩ := hup
      subst hw
      exact ⟨fun h => absurd h hlt, fun _ => ⟨hev.symm, rfl⟩⟩

/-- Witness for the amended claim C6 on a concrete crossing: total 500,
delta 600 one minute after construction crosses one gallon; the hook
fires with count 1 and the stated rate, and `lastGallon` becomes the new
sample. -/
theorem C6_witness :
    (500 + 600 < U64 ∧
      (init 500 0 1000000000 true).lastGallon.total ≤
        (init 500 0 1000000000 true).total ∧
      update (init 500 0 1000000000 true) 60000000000 600 =
        some (Watermeter.mk 1000000000 true ⟨60000000000, 1100⟩ 1100
            [⟨60000000000, 1100⟩],
          some (1, ((usub64 1100 500 : ℕ) : ℚ) / 1000 / minutes 60000000000))) ∧
    ((500 / 1000 < (500 + 600) / 1000 →
      (some (1, ((usub64 1100 500 : ℕ) : ℚ) / 1000 / minutes 60000000000) =
        if true then
          some ((500 + 600) / 1000,
            ((500 + 600 - 500 : ℕ) : ℚ) / 1000 / minutes (60000000000 - 0))
        else none) ∧
      (Watermeter.mk 1000000000 true ⟨60000000000, 1100⟩ 1100
          [⟨60000000000, 1100⟩]).lastGallon = ⟨60000000000, 500 + 600⟩) ∧
    (¬ 500 / 1000 < (500 + 600) / 1000 →
      some (1, ((usub64 1100 500 : ℕ) : ℚ) / 1000 / minutes 60000000000) = none ∧
      (Watermeter.mk 1000000000 true ⟨60000000000, 1100⟩ 1100
          [⟨60000000000, 1100⟩]).lastGallon =
        (init 500 0 1000000000 true).lastGallon)) :=
  ⟨⟨by decide, by decide, rfl⟩,
   C6_amended_usage (init 500 0 1000000000 true) 60000000000 600
     (Watermeter.mk 1000000000 true ⟨60000000000, 1100⟩ 1100 [⟨60000000000, 1100⟩])
     (some (1, ((usub64 1100 500 : ℕ) : ℚ) / 1000 / minutes 60000000000))
     (by decide) (by decide) rfl⟩
